import Mathlib

/-!
Shallow embedding of the expression evaluator of `src/Calculator.py`
(methods `Calculator.evaluate_expression` and
`Calculator.evaluate_simple_expression`).

Modelling conventions:
* Python strings are `List Char` (wrapped into `String` at the interface).
* Python `float` values are idealized as `ℚ`.  Every concrete input
  exercised below only performs float operations that are exact in IEEE
  double precision (small integers, halves, powers of ten), so the rational
  model and CPython agree on all evaluated examples.
* The `re` substitutions are embedded as explicit left-to-right scanners
  that reproduce the exact patterns of the source.
* The `while` rewrite loops of the source can genuinely diverge (the loop
  body can leave the buffer unchanged while the loop condition stays true).
  Loops are therefore modelled with fuel, and a buffer left unchanged by an
  iteration is reported as divergence (`none`), which is exactly the
  behaviour of the source on such buffers.  `evaluate` returns
  `Option String`: `none` models non-termination of the Python code.
* Python exceptions are an `Except` layer: `ValueError` from `math.sqrt`
  of a negative number maps to `Err.invalidSqrt` (caught as
  "Invalid sqrt input"), `ZeroDivisionError` to `Err.divideByZero`
  (caught as "Cannot divide by 0"), and every other exception
  (e.g. `TypeError` from arithmetic on `None`) to `Err.generic`
  (caught as "Error").
-/

namespace Calc

/-- Exceptions of the evaluator, as caught by `evaluate_expression`. -/
inductive Err where
  | invalidSqrt : Err
  | divideByZero : Err
  | generic : Err
deriving DecidableEq, Repr

/-- A token produced by `re.findall(r'(\d+\.?\d*%?|[\+\-\×\÷\*\/])', expr)`.
Number tokens store the value of `float(token)` (idealized as `ℚ`);
percentage tokens store the value before the division by 100 that the
reduction loop performs. -/
inductive Token where
  | num : ℚ → Token
  | pct : ℚ → Token
  | op : Char → Token
deriving DecidableEq, Repr

/-- Numeric value of a list of decimal digit characters (most significant
first), as read by Python's `float`. -/
def natOfDigits (l : List Char) : ℕ :=
  l.foldl (fun n c => 10 * n + (c.toNat - 48)) 0

/-- Value of a decimal literal with integer part `ds` and fractional part
`fs` (either may be empty in the regex forms that allow it). -/
def numVal (ds fs : List Char) : ℚ :=
  (natOfDigits ds : ℚ) + (natOfDigits fs : ℚ) / 10 ^ fs.length

/-- Base-10 digits of `n`, least significant first (empty for `0`), with
explicit fuel so that the definition reduces by kernel computation.
Callers pass `n` itself as fuel, which always suffices. -/
def digitsF : ℕ → ℕ → List ℕ
  | 0, _ => []
  | fuel + 1, n => if n = 0 then [] else n % 10 :: digitsF fuel (n / 10)

/-- Decimal digit characters of a natural number, as printed by `str`. -/
def natStr (n : ℕ) : List Char :=
  if n = 0 then ['0'] else ((digitsF n n).reverse.map Nat.digitChar)

/-- Value of a least-significant-first digit list (specification helper
for reasoning about `digitsF`). -/
def lsdVal (l : List ℕ) : ℕ :=
  l.foldr (fun d acc => 10 * acc + d) 0

/-- Decimal representation of an integer, as printed by `str(int(...))`. -/
def intStr (z : ℤ) : List Char :=
  if z < 0 then '-' :: natStr z.natAbs else natStr z.natAbs

/-- Round to the nearest integer, ties to even: the rounding used by
Python's fixed- and scientific-notation float formatting. -/
def rhe (x : ℚ) : ℤ :=
  let f := ⌊x⌋
  let r := x - (f : ℚ)
  if r < 1 / 2 then f
  else if 1 / 2 < r then f + 1
  else if f % 2 = 0 then f else f + 1

/-- Fueled integer square root by upward search: the largest `k` with
`k * k ≤ n` once the fuel is at least `n` (callers pass `n`). -/
def isqrtGo (n : ℕ) : ℕ → ℕ → ℕ
  | 0, acc => acc
  | fuel + 1, acc => if (acc + 1) * (acc + 1) ≤ n then isqrtGo n fuel (acc + 1) else acc

/-- Integer square root (floor), kernel-computable. -/
def isqrt (n : ℕ) : ℕ := isqrtGo n n 0

/-- Model of `math.sqrt`.  Exact whenever the argument is the square of a
rational (which covers every root the analyzed inputs take); otherwise a
truncating approximation standing in for the IEEE result, which no claim
exercises.  The negative-argument `ValueError` is raised at the call sites. -/
def ratSqrt (v : ℚ) : ℚ :=
  (isqrt (v.num.toNat * v.den) : ℚ) / (v.den : ℚ)

/-- Model of Python float `**` as used by the exponent resolver.  Both
operands come from the regex `\d+\.?\d*`, hence are nonnegative, and the
exponent denominator is 1 (integer exponents) or 2 (halves) on all
analyzed inputs; `b ^ (p/2) = sqrt (b ^ p)` handles the latter exactly when
the result is rational. -/
def pyPow (b e : ℚ) : ℚ :=
  if e.den = 1 then b ^ e.num else ratSqrt (b ^ e.num)

/-- Digits of `str(math.pi)`, the text substituted for `π`. -/
def piStr : List Char := "3.141592653589793".data

/-- Model of Python `str` on a float value, used when a computed literal is
substituted back into the expression buffer.  Integral values print as
`"<int>.0"` exactly like CPython; non-integral values print their shortest
exact decimal expansion (identical to CPython on every value the analyzed
inputs substitute). -/
def pyFloatStr (v : ℚ) : List Char :=
  if v.den = 1 then intStr v.num ++ ['.', '0']
  else
    let sign : List Char := if v < 0 then ['-'] else []
    let a := |v|
    match (List.range 18).find? (fun k => decide (1 ≤ k) && decide ((a * 10 ^ k).den = 1)) with
    | some k =>
        let m := (a * 10 ^ k).num.toNat
        sign ++ natStr (m / 10 ^ k) ++ '.' ::
          (List.replicate (k - (natStr (m % 10 ^ k)).length) '0' ++ natStr (m % 10 ^ k))
    | none =>
        let m := (rhe (a * 10 ^ 17)).toNat
        sign ++ natStr (m / 10 ^ 17) ++ '.' ::
          (List.replicate (17 - (natStr (m % 10 ^ 17)).length) '0' ++ natStr (m % 10 ^ 17))

/-- Python `str(x)` where `x` is the value returned by
`evaluate_simple_expression` (a float or `None`): `str(None)` is the
four-character text `None`. -/
def pyStrOpt : Option ℚ → List Char
  | none => ['N', 'o', 'n', 'e']
  | some v => pyFloatStr v

/-- Does the regex `\d+\.\d+\.` match starting at the head of `l`?
(`\d+` is greedy and no backtracking can help it here, since shrinking a
digit run still leaves a digit where a `.` is required.) -/
def ddHere (l : List Char) : Bool :=
  decide (l.takeWhile Char.isDigit ≠ []) &&
    match l.dropWhile Char.isDigit with
    | c2 :: r2 =>
        (c2 = '.' : Bool) && decide (r2.takeWhile Char.isDigit ≠ []) &&
          (match r2.dropWhile Char.isDigit with
           | c3 :: _ => (c3 = '.' : Bool)
           | [] => false)
    | [] => false

/-- Model of `re.search(r'\d+\.\d+\.', expr)`: the validator's malformed
number check tries the pattern at every start position. -/
def hasDoubleDot : List Char → Bool
  | [] => false
  | c :: rest => ddHere (c :: rest) || hasDoubleDot rest

/-- Python `str.replace` where the needle is a single character. -/
def replaceChar (a : Char) (r : List Char) : List Char → List Char
  | [] => []
  | c :: rest =>
      if c = a then r ++ replaceChar a r rest else c :: replaceChar a r rest

/-- Is `**` a substring, i.e. Python's `'**' in expr`? -/
def hasStarStar : List Char → Bool
  | c :: d :: rest => (c = '*' && d = '*') || hasStarStar (d :: rest)
  | _ => false

/-- One full pass of
`re.sub(r'√(\d+(?:\.\d+)?)', r'math.sqrt(\1)', expr)` inside
`evaluate_simple_expression`: each `√` followed by a decimal literal is
rewritten to the literal text `math.sqrt(...)` (whose letters and
parentheses the tokenizer later drops, leaving only the digits).
`fuel` bounds the scan; callers pass the buffer length, and every step
consumes at least one character, so the fuel never runs out. -/
def sqrtTextSub : ℕ → List Char → List Char
  | 0, _ => []
  | _ + 1, [] => []
  | fuel + 1, c :: rest =>
      if c = '√' then
        let ds := rest.takeWhile Char.isDigit
        if ds = [] then c :: sqrtTextSub fuel rest
        else
          let r1 := rest.dropWhile Char.isDigit
          let (g, r2) :=
            match r1 with
            | '.' :: r =>
                if (r.takeWhile Char.isDigit) = [] then (ds, r1)
                else (ds ++ '.' :: r.takeWhile Char.isDigit, r.dropWhile Char.isDigit)
            | _ => (ds, r1)
          "math.sqrt(".data ++ g ++ ')' :: sqrtTextSub fuel r2
      else c :: sqrtTextSub fuel rest

/-- Decompose a decimal literal `\d+\.?\d*` at the head of `l`: returns the
integer digits, the fractional digits, and the rest.  `none` if `l` does
not start with a digit. -/
def readNum (l : List Char) : Option (List Char × List Char × List Char) :=
  let ds := l.takeWhile Char.isDigit
  if ds = [] then none
  else
    let r1 := l.dropWhile Char.isDigit
    match r1 with
    | '.' :: r => some (ds, r.takeWhile Char.isDigit, r.dropWhile Char.isDigit)
    | _ => some (ds, [], r1)

/-- One full pass of the exponent substitution
`re.sub(r'(\d+\.?\d*)\s*\*\*\s*(\d+\.?\d*)', ...)`: each match is replaced
by `str(float(base) ** float(exponent))`.  A failed match at one position
resumes the scan one character further, exactly like `re.sub`. -/
def expSub : ℕ → List Char → List Char
  | 0, _ => []
  | _ + 1, [] => []
  | fuel + 1, c :: rest =>
      match readNum (c :: rest) with
      | some (ds, fs, r1) =>
          let afterWs := r1.dropWhile (fun x => x.isWhitespace)
          match afterWs with
          | '*' :: '*' :: r2 =>
              let r3 := r2.dropWhile (fun x => x.isWhitespace)
              match readNum r3 with
              | some (es, gs, r4) =>
                  pyFloatStr (pyPow (numVal ds fs) (numVal es gs)) ++ expSub fuel r4
              | none => c :: expSub fuel rest
          | _ => c :: expSub fuel rest
      | none => c :: expSub fuel rest

/-- The `while '**' in expr` loop of `evaluate_simple_expression`.  If an
iteration leaves the buffer unchanged while `**` is still present, the
Python loop never terminates; this is reported as `none`. -/
def expLoop : ℕ → List Char → Option (List Char)
  | 0, s => if hasStarStar s then none else some s
  | fuel + 1, s =>
      if hasStarStar s then
        let s' := expSub s.length s
        if s' = s then none else expLoop fuel s'
      else some s

/-- The single-pass tokenizer
`re.findall(r'(\d+\.?\d*%?|[\+\-\×\÷\*\/])', expr)`.  Characters matching
neither alternative are silently dropped. -/
def tokGo : ℕ → List Char → List Token
  | 0, _ => []
  | _ + 1, [] => []
  | fuel + 1, c :: rest =>
      match readNum (c :: rest) with
      | some (ds, fs, r1) =>
          match r1 with
          | '%' :: r2 => Token.pct (numVal ds fs) :: tokGo fuel r2
          | _ => Token.num (numVal ds fs) :: tokGo fuel r1
      | none =>
          if c = '+' ∨ c = '-' ∨ c = '×' ∨ c = '÷' ∨ c = '*' ∨ c = '/' then
            Token.op c :: tokGo fuel rest
          else tokGo fuel rest

/-- Tokenize a buffer (fuel instantiated with the buffer length). -/
def tokenize (l : List Char) : List Token := tokGo l.length l

/-- The `if last_operator == ... / elif ...` table applied when a regular
number token is reduced into a set accumulator: `+` adds, `-` subtracts,
`×`/`*` multiplies, `÷`/`/` divides (raising `ZeroDivisionError` on a zero
divisor), and any other remembered operator leaves the accumulator
unchanged (the chain has no final `else`). -/
def applyOp (c : Char) (a b : ℚ) : Except Err ℚ :=
  match c with
  | '+' => .ok (a + b)
  | '-' => .ok (a - b)
  | '×' | '*' => .ok (a * b)
  | '÷' | '/' => if b = 0 then .error .divideByZero else .ok (a / b)
  | _ => .ok a

/-- The contextual percentage table applied to a `%`-suffixed token whose
value-divided-by-100 is `f`: after `+`/`-` the accumulator gains/loses
`accumulator * f`; after `×`/`÷` it is multiplied/divided by the raw
fraction `f`; any other remembered operator reassigns the accumulator to
`f` (the chain's final `else`).  Arithmetic on an unset accumulator is
Python's `TypeError`, the generic error. -/
def pctOp (c : Char) (acc : Option ℚ) (f : ℚ) : Except Err (Option ℚ) :=
  match c with
  | '+' =>
      match acc with
      | some a => .ok (some (a + a * f))
      | none => .error .generic
  | '-' =>
      match acc with
      | some a => .ok (some (a - a * f))
      | none => .error .generic
  | '×' | '*' =>
      match acc with
      | some a => .ok (some (a * f))
      | none => .error .generic
  | '÷' | '/' =>
      match acc with
      | some a => if f = 0 then .error .divideByZero else .ok (some (a / f))
      | none => .error .generic
  | _ => .ok (some f)

/-- One step of the left-to-right reduction loop of
`evaluate_simple_expression`: the state is
`(current_value, last_operator)`. -/
def applyTok : Option ℚ × Option Char → Token → Except Err (Option ℚ × Option Char)
  | (acc, _), Token.op c => .ok (acc, some c)
  | (acc, lop), Token.pct p =>
      let f := p / 100
      match lop with
      | none => .ok (some f, none)
      | some c =>
          match pctOp c acc f with
          | .error e => .error e
          | .ok acc' => .ok (acc', some c)
  | (acc, lop), Token.num p =>
      match acc with
      | none => .ok (some p, lop)
      | some a =>
          match lop with
          | none => .ok (some a, none)
          | some c =>
              match applyOp c a p with
              | .error e => .error e
              | .ok a' => .ok (some a', some c)

/-- The reduction loop of `evaluate_simple_expression` over the token
list, carrying the `(current_value, last_operator)` state. -/
def evalFrom (st : Option ℚ × Option Char) : List Token → Except Err (Option ℚ)
  | [] => .ok st.1
  | t :: ts =>
      match applyTok st t with
      | .error e => .error e
      | .ok st' => evalFrom st' ts

/-- Run the reduction loop over a token list from the initial unset state
and return the final `current_value`. -/
def evalTokens (ts : List Token) : Except Err (Option ℚ) :=
  evalFrom (none, none) ts

/-- Model of `Calculator.evaluate_simple_expression`: symbol substitution,
the `√digits` text rewrite, the exponent loop, tokenizing, and the
left-to-right reduction.  `none` models non-termination of the exponent
loop; the inner `Option ℚ` is the possibly-`None` return value. -/
def evalSimple (s : List Char) : Option (Except Err (Option ℚ)) :=
  let s1 := replaceChar '×' ['*'] s
  let s2 := replaceChar '÷' ['/'] s1
  let s3 := replaceChar 'π' piStr s2
  let s4 := replaceChar '^' ['*', '*'] s3
  let s5 := sqrtTextSub s4.length s4
  match expLoop (s5.length + 1) s5 with
  | none => none
  | some s6 => some (evalTokens (tokenize s6))

/-- One full pass of
`re.sub(r'√\(([^)]+)\)', lambda m: str(math.sqrt(float(evaluate_simple_expression(m.group(1))))), expr)`.
The capture `[^)]+` is a nonempty run of characters other than `)` — it may
well contain `(` — so the capture extends from a `√(` to the first
following `)`.  `float(None)` is a `TypeError` (generic error);
`math.sqrt` of a negative value is the `math domain error` `ValueError`. -/
def subRootParen : ℕ → List Char → Option (Except Err (List Char))
  | 0, _ => some (.ok [])
  | _ + 1, [] => some (.ok [])
  | fuel + 1, c :: rest =>
      if c = '√' then
        match rest with
        | '(' :: rest2 =>
            match rest2.dropWhile (fun x => x ≠ ')'),
                rest2.takeWhile (fun x => x ≠ ')') with
            | ')' :: after, c0 :: cap =>
                match evalSimple (c0 :: cap) with
                | none => none
                | some (.error e) => some (.error e)
                | some (.ok none) => some (.error .generic)
                | some (.ok (some v)) =>
                    if v < 0 then some (.error .invalidSqrt)
                    else
                      match subRootParen fuel after with
                      | none => none
                      | some (.error e) => some (.error e)
                      | some (.ok tail) => some (.ok (pyFloatStr (ratSqrt v) ++ tail))
            | _, _ =>
                match subRootParen fuel rest with
                | none => none
                | some (.error e) => some (.error e)
                | some (.ok tail) => some (.ok (c :: tail))
        | _ =>
            match subRootParen fuel rest with
            | none => none
            | some (.error e) => some (.error e)
            | some (.ok tail) => some (.ok (c :: tail))
      else
        match subRootParen fuel rest with
        | none => none
        | some (.error e) => some (.error e)
        | some (.ok tail) => some (.ok (c :: tail))

/-- One full pass of
`re.sub(r'√(\d+\.?\d*)', lambda m: str(math.sqrt(float(m.group(1)))), expr)`:
a bare `√` directly followed by a decimal literal.  The literal is
nonnegative, so `math.sqrt` cannot fail here. -/
def subRootBare : ℕ → List Char → List Char
  | 0, _ => []
  | _ + 1, [] => []
  | fuel + 1, c :: rest =>
      if c = '√' then
        match readNum rest with
        | some (ds, fs, r1) => pyFloatStr (ratSqrt (numVal ds fs)) ++ subRootBare fuel r1
        | none => c :: subRootBare fuel rest
      else c :: subRootBare fuel rest

/-- The `while '√' in expr` loop of `evaluate_expression`: one iteration is
the parenthesized-root pass followed by the bare-root pass.  An iteration
that raises propagates the exception; an iteration that leaves the buffer
unchanged while `√` remains makes the Python loop spin forever (`none`). -/
def rootLoop : ℕ → List Char → Option (Except Err (List Char))
  | 0, s => if '√' ∈ s then none else some (.ok s)
  | fuel + 1, s =>
      if '√' ∈ s then
        match subRootParen s.length s with
        | none => none
        | some (.error e) => some (.error e)
        | some (.ok s1) =>
            let s2 := subRootBare s1.length s1
            if s2 = s then none else rootLoop fuel s2
      else some (.ok s)

/-- One full pass of
`re.sub(r'\(([^()]+)\)', lambda m: str(evaluate_simple_expression(m.group(1))), expr)`:
an innermost parenthesized group is replaced by `str` of its linear
evaluation (which is the text `None` when the evaluation returns `None`). -/
def parenSub : ℕ → List Char → Option (Except Err (List Char))
  | 0, _ => some (.ok [])
  | _ + 1, [] => some (.ok [])
  | fuel + 1, c :: rest =>
      if c = '(' then
        match rest.dropWhile (fun x => x ≠ '(' ∧ x ≠ ')'),
            rest.takeWhile (fun x => x ≠ '(' ∧ x ≠ ')') with
        | ')' :: after, c0 :: cap =>
            match evalSimple (c0 :: cap) with
            | none => none
            | some (.error e) => some (.error e)
            | some (.ok r) =>
                match parenSub fuel after with
                | none => none
                | some (.error e) => some (.error e)
                | some (.ok tail) => some (.ok (pyStrOpt r ++ tail))
        | _, _ =>
            match parenSub fuel rest with
            | none => none
            | some (.error e) => some (.error e)
            | some (.ok tail) => some (.ok (c :: tail))
      else
        match parenSub fuel rest with
        | none => none
        | some (.error e) => some (.error e)
        | some (.ok tail) => some (.ok (c :: tail))

/-- The `while '(' in expr` loop of `evaluate_expression`. -/
def parenLoop : ℕ → List Char → Option (Except Err (List Char))
  | 0, s => if '(' ∈ s then none else some (.ok s)
  | fuel + 1, s =>
      if '(' ∈ s then
        match parenSub s.length s with
        | none => none
        | some (.error e) => some (.error e)
        | some (.ok s1) => if s1 = s then none else parenLoop fuel s1
      else some (.ok s)

/-- Fueled base-10 logarithm: the largest `k` with `10 ^ k ≤ n` for
`n ≥ 1`, once the fuel is at least `n` (callers pass `n`). -/
def ilog10 : ℕ → ℕ → ℕ
  | 0, _ => 0
  | fuel + 1, n => if n < 10 then 0 else ilog10 fuel (n / 10) + 1

/-- Decimal exponent of a positive rational: the unique `e` with
`10 ^ e ≤ a < 10 ^ (e + 1)`. -/
def qlog10 (a : ℚ) : ℤ :=
  if 1 ≤ a then (ilog10 (⌊a⌋).toNat (⌊a⌋).toNat : ℤ)
  else
    let L := ilog10 (⌊1 / a⌋).toNat (⌊1 / a⌋).toNat
    if 1 ≤ a * 10 ^ L then -(L : ℤ) else -((L : ℤ) + 1)

/-- Model of `"{:.8e}".format(v)`: scientific notation with one leading
digit, 8 digits after the point, and a signed two-digit (minimum)
exponent, rounding ties to even. -/
def sciFormat (v : ℚ) : List Char :=
  if v = 0 then "0.00000000e+00".data
  else
    let sign : List Char := if v < 0 then ['-'] else []
    let a := |v|
    let e := qlog10 a
    let d := rhe (a / 10 ^ e * 10 ^ 8)
    let d' := if d = 10 ^ 9 then (10 ^ 8 : ℤ) else d
    let e' := if d = 10 ^ 9 then e + 1 else e
    let ds := natStr d'.toNat
    let expDigits := natStr e'.natAbs
    let expPad := if expDigits.length < 2 then '0' :: expDigits else expDigits
    sign ++
      (match ds with
       | m :: ms => m :: '.' :: ms
       | [] => []) ++
      'e' :: (if e' < 0 then '-' else '+') :: expPad

/-- Model of `"{:.8f}".format(v)`: fixed notation with exactly 8 digits
after the point, rounding ties to even. -/
def fixed8 (v : ℚ) : List Char :=
  let m := (rhe (|v| * 10 ^ 8)).toNat
  let fp := natStr (m % 10 ^ 8)
  (if v < 0 then ['-'] else []) ++ natStr (m / 10 ^ 8) ++
    '.' :: (List.replicate (8 - fp.length) '0' ++ fp)

/-- Python `s.rstrip(c)`: drop every trailing occurrence of `c`. -/
def rstrip (c : Char) (l : List Char) : List Char :=
  (l.reverse.dropWhile (fun x => x = c)).reverse

/-- The result formatter of `evaluate_expression`: scientific notation for
`|v| ≥ 1e8` or `0 < |v| < 1e-4`, a plain integer for whole values, and
otherwise 8 fixed decimals with trailing zeros and a trailing point
stripped (falling back to `"0"` if stripping consumed everything). -/
def formatResult (v : ℚ) : List Char :=
  if 10 ^ 8 ≤ |v| ∨ (0 < |v| ∧ |v| < 1 / 10 ^ 4 ∧ v ≠ 0) then sciFormat v
  else if v.den = 1 then intStr v.num
  else
    let f := rstrip '.' (rstrip '0' (fixed8 v))
    if f = [] then ['0'] else f

/-- Error outcome strings returned by the exception handlers of
`evaluate_expression`. -/
def errStr : Err → String
  | .invalidSqrt => "Invalid sqrt input"
  | .divideByZero => "Cannot divide by 0"
  | .generic => "Error"

/-- The post-validation body of `evaluate_expression`: the root loop, the
parenthesis loop, and the linear evaluation of the residue.  `none` models
non-termination of one of the rewrite loops. -/
def evalCore (l : List Char) : Option (Except Err (Option ℚ)) :=
  match rootLoop (l.length + 1) l with
  | none => none
  | some (.error e) => some (.error e)
  | some (.ok l1) =>
      match parenLoop (l1.length + 1) l1 with
      | none => none
      | some (.error e) => some (.error e)
      | some (.ok l2) => evalSimple l2

/-- Model of `Calculator.evaluate_expression`: validation, the rewrite
stages, and result formatting.  `none` models non-termination of the
Python code; a final `None` value makes the formatter raise a `TypeError`,
caught as the generic error string `"Error"`. -/
def evaluate (s : String) : Option String :=
  let l := s.data
  if 100 < l.length then some "Input too long"
  else if l.count '(' ≠ l.count ')' then some "Unbalanced parentheses"
  else if hasDoubleDot l then some "Invalid number"
  else
    match evalCore l with
    | none => none
    | some (.error e) => some (errStr e)
    | some (.ok none) => some "Error"
    | some (.ok (some v)) => some (String.mk (formatResult v))

/-- Token list `op c₁, num b₁, op c₂, num b₂, …` of an alternating
operator/number tail. -/
def opNumList : List (Char × ℚ) → List Token
  | [] => []
  | (c, b) :: rest => Token.op c :: Token.num b :: opNumList rest

/-- Plain left-to-right reduction with no precedence: starting from `a`,
apply each operator/number pair in order via `applyOp`. -/
def leftReduce (a : ℚ) : List (Char × ℚ) → Except Err ℚ
  | [] => .ok a
  | (c, b) :: rest =>
      match applyOp c a b with
      | .error e => .error e
      | .ok a' => leftReduce a' rest

attribute [local semireducible] Rat.add Rat.mul Rat.sub Rat.inv Rat.ofScientific

theorem evalFrom_opNumList (ps : List (Char × ℚ)) :
    ∀ (a : ℚ) (lop : Option Char),
      evalFrom (some a, lop) (opNumList ps) = (leftReduce a ps).map some := by
  induction ps with
  | nil => intro a lop; rfl
  | cons p rest ih =>
      intro a lop
      obtain ⟨c, b⟩ := p
      show evalFrom (some a, lop) (Token.op c :: Token.num b :: opNumList rest) = _
      cases happ : applyOp c a b with
      | error e => simp [evalFrom, applyTok, leftReduce, happ, Except.map]
      | ok a' => simp [evalFrom, applyTok, leftReduce, happ, ih]

theorem lsdVal_digitsF : ∀ fuel n : ℕ, n ≤ fuel → lsdVal (digitsF fuel n) = n := by
  intro fuel
  induction fuel with
  | zero =>
      intro n hn
      have : n = 0 := by omega
      subst this
      rfl
  | succ f ih =>
      intro n hn
      by_cases h0 : n = 0
      · subst h0; rfl
      · have hstep : digitsF (f + 1) n = n % 10 :: digitsF f (n / 10) := by
          simp [digitsF, h0]
        have hdiv : n / 10 ≤ f := by
          have := Nat.div_lt_self (Nat.pos_of_ne_zero h0) (by norm_num : 1 < 10)
          omega
        rw [hstep]
        show 10 * lsdVal (digitsF f (n / 10)) + n % 10 = n
        rw [ih _ hdiv]
        omega

theorem digitsF_lt : ∀ fuel n : ℕ, ∀ d ∈ digitsF fuel n, d < 10 := by
  intro fuel
  induction fuel with
  | zero => intro n d hd; simp [digitsF] at hd
  | succ f ih =>
      intro n d hd
      by_cases h0 : n = 0
      · subst h0; simp [digitsF] at hd
      · simp only [digitsF, h0, if_false] at hd
        rcases List.mem_cons.mp hd with h | h
        · subst h; exact Nat.mod_lt _ (by norm_num)
        · exact ih _ _ h

theorem digitsF_len : ∀ fuel n k : ℕ, n < 10 ^ k → (digitsF fuel n).length ≤ k := by
  intro fuel
  induction fuel with
  | zero => intro n k _; simp [digitsF]
  | succ f ih =>
      intro n k hk
      by_cases h0 : n = 0
      · subst h0; simp [digitsF]
      · simp only [digitsF, h0, if_false, List.length_cons]
        have hk1 : 1 ≤ k := by
          by_contra h
          have : k = 0 := by omega
          subst this
          simp at hk
          omega
        have : n / 10 < 10 ^ (k - 1) := by
          rw [Nat.div_lt_iff_lt_mul (by norm_num : 0 < 10)]
          calc n < 10 ^ k := hk
            _ = 10 ^ (k - 1) * 10 := by
                rw [← pow_succ]
                congr 1
                omega
        have := ih (n / 10) (k - 1) this
        omega

theorem digitChar_isDigit (d : ℕ) (hd : d < 10) :
    (Nat.digitChar d).isDigit = true := by
  interval_cases d <;> decide

theorem digitChar_val (d : ℕ) (hd : d < 10) :
    (Nat.digitChar d).toNat - 48 = d := by
  interval_cases d <;> decide

theorem foldr_digitChar : ∀ l : List ℕ, (∀ d ∈ l, d < 10) →
    l.foldr (fun d acc => 10 * acc + ((Nat.digitChar d).toNat - 48)) 0 = lsdVal l := by
  intro l
  induction l with
  | nil => intro _; rfl
  | cons d rest ih =>
      intro h
      show 10 * rest.foldr (fun d acc => 10 * acc + ((Nat.digitChar d).toNat - 48)) 0 +
          ((Nat.digitChar d).toNat - 48) = 10 * lsdVal rest + d
      rw [ih (fun x hx => h x (List.mem_cons_of_mem _ hx)),
        digitChar_val d (h d (List.mem_cons_self _ _))]

theorem natStr_ne_nil (n : ℕ) : natStr n ≠ [] := by
  by_cases h0 : n = 0
  · subst h0; simp [natStr]
  · simp only [natStr, h0, if_false]
    intro hcon
    have h1 : digitsF n n = [] := by
      have := congrArg List.length hcon
      simp at this
      cases hd : digitsF n n with
      | nil => rfl
      | cons a l => rw [hd] at this; simp at this
    have := lsdVal_digitsF n n le_rfl
    rw [h1] at this
    exact h0 (by simpa [lsdVal] using this.symm)

theorem natStr_isDigit (n : ℕ) : ∀ c ∈ natStr n, c.isDigit = true := by
  by_cases h0 : n = 0
  · subst h0; intro c hc; simp [natStr] at hc; subst hc; decide
  · simp only [natStr, h0, if_false]
    intro c hc
    rcases List.mem_map.mp (by simpa using hc) with ⟨d, hd, rfl⟩
    exact digitChar_isDigit d (digitsF_lt n n d (by simpa using hd))

theorem natStr_len (n k : ℕ) (h : n < 10 ^ k) (hk : 1 ≤ k) :
    (natStr n).length ≤ k := by
  by_cases h0 : n = 0
  · subst h0; simpa [natStr] using hk
  · simp only [natStr, h0, if_false, List.length_map, List.length_reverse]
    exact digitsF_len n n k h

theorem natOfDigits_natStr (n : ℕ) : natOfDigits (natStr n) = n := by
  by_cases h0 : n = 0
  · subst h0; rfl
  · simp only [natStr, h0, if_false]
    unfold natOfDigits
    rw [List.map_reverse, List.foldl_reverse]
    have hmapfold : ∀ (l : List ℕ),
        (l.map Nat.digitChar).foldr (fun x y => 10 * y + (x.toNat - 48)) 0 =
          l.foldr (fun d acc => 10 * acc + ((Nat.digitChar d).toNat - 48)) 0 := by
      intro l
      induction l with
      | nil => rfl
      | cons d rest ih => simp [List.foldr_cons, ih]
    rw [hmapfold, foldr_digitChar _ (digitsF_lt n n), lsdVal_digitsF n n le_rfl]

theorem takeWhile_append_all {p : Char → Bool} (s t : List Char)
    (h : ∀ x ∈ s, p x) : (s ++ t).takeWhile p = s ++ t.takeWhile p := by
  induction s with
  | nil => rfl
  | cons c rest ih =>
      have hc : p c = true := h c (by simp)
      simp only [List.cons_append, List.takeWhile_cons, hc, if_true]
      rw [ih (fun x hx => h x (by simp [hx]))]

theorem dropWhile_append_all {p : Char → Bool} (s t : List Char)
    (h : ∀ x ∈ s, p x) : (s ++ t).dropWhile p = t.dropWhile p := by
  induction s with
  | nil => rfl
  | cons c rest ih =>
      have hc : p c = true := h c (by simp)
      simp only [List.cons_append, List.dropWhile_cons, hc, if_true]
      exact ih (fun x hx => h x (by simp [hx]))

theorem natOfDigits_append (a b : List Char) :
    natOfDigits (a ++ b) = natOfDigits a * 10 ^ b.length + natOfDigits b := by
  have key : ∀ (b : List Char) (A : ℕ),
      b.foldl (fun n c => 10 * n + (c.toNat - 48)) A =
        A * 10 ^ b.length + b.foldl (fun n c => 10 * n + (c.toNat - 48)) 0 := by
    intro b
    induction b with
    | nil => intro A; simp
    | cons c rest ih =>
        intro A
        show rest.foldl _ (10 * A + (c.toNat - 48)) = _
        rw [ih (10 * A + (c.toNat - 48))]
        have h2 : rest.foldl (fun n c => 10 * n + (c.toNat - 48)) (c.toNat - 48) =
            (c.toNat - 48) * 10 ^ rest.length +
              rest.foldl (fun n c => 10 * n + (c.toNat - 48)) 0 := by
          have := ih (c.toNat - 48)
          simpa using this
        show _ = A * 10 ^ (rest.length + 1) +
          rest.foldl (fun n c => 10 * n + (c.toNat - 48)) (10 * 0 + (c.toNat - 48))
        simp only [Nat.mul_zero, Nat.zero_add]
        rw [h2]
        ring
  unfold natOfDigits
  rw [List.foldl_append, key b]

theorem natOfDigits_replicate_zero (k : ℕ) :
    natOfDigits (List.replicate k '0') = 0 := by
  induction k with
  | zero => rfl
  | succ n ih =>
      show natOfDigits (List.replicate (n + 1) '0') = 0
      rw [List.replicate_succ]
      show (List.replicate n '0').foldl (fun n c => 10 * n + (c.toNat - 48))
        (10 * 0 + ('0'.toNat - 48)) = 0
      simpa [natOfDigits] using ih

theorem dropWhile_append_split (p : Char → Bool) (X Y : List Char) :
    List.dropWhile p (X ++ Y) =
      if X.dropWhile p = [] then Y.dropWhile p else X.dropWhile p ++ Y := by
  induction X with
  | nil => simp
  | cons x X' ih =>
      by_cases hx : p x
      · simpa [List.dropWhile_cons, hx] using ih
      · simp [List.dropWhile_cons, hx]

theorem rstrip_append (c : Char) (A B : List Char) :
    rstrip c (A ++ B) =
      if rstrip c B = [] then rstrip c A else A ++ rstrip c B := by
  unfold rstrip
  rw [List.reverse_append, dropWhile_append_split]
  by_cases hB : List.dropWhile (fun x => x = c) B.reverse = []
  · simp [hB]
  · rw [if_neg hB, if_neg (by simpa using hB), List.reverse_append,
      List.reverse_reverse]

theorem rstrip_replicate (c : Char) (k : ℕ) :
    rstrip c (List.replicate k c) = [] := by
  unfold rstrip
  rw [List.reverse_replicate]
  have : List.dropWhile (fun x => x = c) (List.replicate k c) = [] := by
    rw [List.dropWhile_eq_nil_iff]
    intro x hx
    simp [List.eq_of_mem_replicate hx]
  simp [this]

theorem rstrip_id_of_all_ne (c : Char) (l : List Char)
    (h : ∀ x ∈ l, x ≠ c) : rstrip c l = l := by
  unfold rstrip
  have : List.dropWhile (fun x => x = c) l.reverse = l.reverse := by
    cases hl : l.reverse with
    | nil => rfl
    | cons a r =>
        rw [List.dropWhile_cons, if_neg]
        simp only [decide_eq_true_eq]
        exact h a (by rw [← List.mem_reverse, hl]; exact List.mem_cons_self _ _)
  rw [this, List.reverse_reverse]

theorem rstrip_decomp (c : Char) (l : List Char) :
    ∃ t : ℕ, l = rstrip c l ++ List.replicate t c := by
  refine ⟨(l.reverse.takeWhile (fun x => x = c)).length, ?_⟩
  have hsplit := List.takeWhile_append_dropWhile (p := fun x => x = c) (l := l.reverse)
  have hrep : l.reverse.takeWhile (fun x => x = c) =
      List.replicate (l.reverse.takeWhile (fun x => x = c)).length c := by
    apply List.eq_replicate_of_mem
    intro x hx
    simpa using (List.mem_takeWhile_imp hx)
  calc l = l.reverse.reverse := (List.reverse_reverse l).symm
    _ = (l.reverse.takeWhile (fun x => x = c) ++
          l.reverse.dropWhile (fun x => x = c)).reverse := by rw [hsplit]
    _ = rstrip c l ++ (l.reverse.takeWhile (fun x => x = c)).reverse := by
        rw [List.reverse_append]; rfl
    _ = _ := by
        rw [hrep, List.reverse_replicate]
        simp [List.length_replicate]

theorem rstrip_subset (c : Char) (l : List Char) :
    ∀ x ∈ rstrip c l, x ∈ l := by
  intro x hx
  unfold rstrip at hx
  rw [List.mem_reverse] at hx
  have := List.dropWhile_sublist (l := l.reverse) (p := fun x => x = c)
  rw [← List.mem_reverse]
  exact this.mem hx

theorem replaceChar_id (a : Char) (r l : List Char) (h : a ∉ l) :
    replaceChar a r l = l := by
  induction l with
  | nil => rfl
  | cons c rest ih =>
      have hca : ¬ (c = a) := fun hc => h (hc ▸ List.mem_cons_self _ _)
      simp only [replaceChar, if_neg hca]
      rw [ih (fun hm => h (List.mem_cons_of_mem _ hm))]

theorem sqrtTextSub_id : ∀ (fuel : ℕ) (l : List Char), '√' ∉ l →
    l.length ≤ fuel → sqrtTextSub fuel l = l := by
  intro fuel
  induction fuel with
  | zero =>
      intro l h hl
      have : l = [] := List.length_eq_zero.mp (by omega)
      subst this
      rfl
  | succ f ih =>
      intro l h hl
      cases l with
      | nil => rfl
      | cons c rest =>
          have hc : ¬ (c = '√') := fun hc => h (hc ▸ List.mem_cons_self _ _)
          simp only [sqrtTextSub, if_neg hc]
          rw [ih rest (fun hm => h (List.mem_cons_of_mem _ hm))
            (by simp only [List.length_cons] at hl; omega)]

theorem hasStarStar_eq_false (l : List Char) (h : '*' ∉ l) :
    hasStarStar l = false := by
  induction l with
  | nil => rfl
  | cons c rest ih =>
      cases rest with
      | nil => rfl
      | cons d rest' =>
          have hc : ¬ (c = '*') := fun hc => h (hc ▸ List.mem_cons_self _ _)
          simp only [hasStarStar]
          rw [ih (fun hm => h (List.mem_cons_of_mem _ hm))]
          simp [hc]

theorem expLoop_noStar (l : List Char) (h : hasStarStar l = false) :
    ∀ fuel : ℕ, expLoop fuel l = some l := by
  intro fuel
  cases fuel with
  | zero => simp [expLoop, h]
  | succ f => simp [expLoop, h]

theorem rootLoop_noRoot (l : List Char) (h : '√' ∉ l) :
    ∀ fuel : ℕ, rootLoop fuel l = some (.ok l) := by
  intro fuel
  cases fuel with
  | zero => simp [rootLoop, h]
  | succ f => simp [rootLoop, h]

theorem parenLoop_noParen (l : List Char) (h : '(' ∉ l) :
    ∀ fuel : ℕ, parenLoop fuel l = some (.ok l) := by
  intro fuel
  cases fuel with
  | zero => simp [parenLoop, h]
  | succ f => simp [parenLoop, h]

theorem ddHere_count (l : List Char) (h : ddHere l = true) :
    2 ≤ l.count '.' := by
  unfold ddHere at h
  rw [Bool.and_eq_true] at h
  obtain ⟨-, h⟩ := h
  cases hd : l.dropWhile Char.isDigit with
  | nil => rw [hd] at h; simp at h
  | cons c2 r2 =>
      rw [hd] at h
      simp only [Bool.and_eq_true, decide_eq_true_eq] at h
      obtain ⟨⟨hc2, -⟩, h3⟩ := h
      have hr2 : 1 ≤ r2.count '.' := by
        cases hd3 : r2.dropWhile Char.isDigit with
        | nil => rw [hd3] at h3; simp at h3
        | cons c3 r3 =>
            rw [hd3] at h3
            simp only [decide_eq_true_eq] at h3
            have hsub : (r2.dropWhile Char.isDigit).count '.' ≤ r2.count '.' :=
              (List.dropWhile_sublist _).count_le _
            rw [hd3] at hsub
            have hone : 1 ≤ (c3 :: r3).count '.' := by
              subst h3
              simp [List.count_cons]
            omega
      have hsub : (l.dropWhile Char.isDigit).count '.' ≤ l.count '.' :=
        (List.dropWhile_sublist _).count_le _
      rw [hd] at hsub
      simp only [List.count_cons, hc2] at hsub
      simp at hsub
      omega

theorem hasDoubleDot_count (l : List Char) (h : l.count '.' ≤ 1) :
    hasDoubleDot l = false := by
  induction l with
  | nil => rfl
  | cons c rest ih =>
      show (ddHere (c :: rest) || hasDoubleDot rest) = false
      have h1 : rest.count '.' ≤ 1 := by
        have : rest.count '.' ≤ (c :: rest).count '.' := by
          simp [List.count_cons]
        omega
      rw [ih h1, Bool.or_false]
      by_contra hdd
      rw [Bool.not_eq_false] at hdd
      exact absurd h (by have := ddHere_count _ hdd; omega)

theorem tokGo_nil : ∀ fuel : ℕ, tokGo fuel [] = [] := by
  intro fuel
  cases fuel <;> rfl

theorem evaluate_eq_of_valid (s : String) (h1 : s.data.length ≤ 100)
    (h2 : s.data.count '(' = s.data.count ')')
    (h3 : hasDoubleDot s.data = false) :
    evaluate s =
      match evalCore s.data with
      | none => none
      | some (.error e) => some (errStr e)
      | some (.ok none) => some "Error"
      | some (.ok (some v)) => some (String.mk (formatResult v)) := by
  unfold evaluate
  rw [if_neg (by omega), if_neg (by simp [h2]), if_neg (by simp [h3])]

theorem tokenize_intStr (ds : List Char) (hds : ∀ c ∈ ds, c.isDigit = true)
    (hne : ds ≠ []) : tokenize ds = [Token.num (numVal ds [])] := by
  obtain ⟨c, ds', rfl⟩ : ∃ c ds', ds = c :: ds' := by
    cases ds with
    | nil => exact absurd rfl hne
    | cons a l => exact ⟨a, l, rfl⟩
  have htw : (c :: ds').takeWhile Char.isDigit = c :: ds' :=
    List.takeWhile_eq_self_iff.mpr hds
  have hdw : (c :: ds').dropWhile Char.isDigit = [] :=
    List.dropWhile_eq_nil_iff.mpr hds
  have hread : readNum (c :: ds') = some (c :: ds', [], []) := by
    simp [readNum, htw, hdw]
  show tokGo (c :: ds').length (c :: ds') = _
  rw [List.length_cons]
  simp only [tokGo, hread]
  rw [tokGo_nil]

theorem tokenize_decStr (ds fs : List Char) (hds : ∀ c ∈ ds, c.isDigit = true)
    (hfs : ∀ c ∈ fs, c.isDigit = true) (hne : ds ≠ []) :
    tokenize (ds ++ '.' :: fs) = [Token.num (numVal ds fs)] := by
  obtain ⟨c, ds', rfl⟩ : ∃ c ds', ds = c :: ds' := by
    cases ds with
    | nil => exact absurd rfl hne
    | cons a l => exact ⟨a, l, rfl⟩
  have hassoc : (c :: ds') ++ '.' :: fs = c :: (ds' ++ '.' :: fs) := by simp
  have htw : (c :: (ds' ++ '.' :: fs)).takeWhile Char.isDigit = c :: ds' := by
    rw [← hassoc, takeWhile_append_all _ _ hds]
    simp [List.takeWhile_cons]
  have hdw : (c :: (ds' ++ '.' :: fs)).dropWhile Char.isDigit = '.' :: fs := by
    rw [← hassoc, dropWhile_append_all _ _ hds]
    rfl
  have hread : readNum (c :: (ds' ++ '.' :: fs)) = some (c :: ds', fs, []) := by
    simp only [readNum, htw, hdw]
    simp [List.takeWhile_eq_self_iff.mpr hfs, List.dropWhile_eq_nil_iff.mpr hfs]
  show tokenize ((c :: ds') ++ '.' :: fs) = _
  rw [hassoc]
  show tokGo (c :: (ds' ++ '.' :: fs)).length (c :: (ds' ++ '.' :: fs)) = _
  rw [List.length_cons]
  simp only [tokGo, hread]
  cases hfs' : fs with
  | nil => rw [tokGo_nil]
  | cons f fs'' =>
      subst hfs'
      rw [tokGo_nil]

theorem class_not_mem (l : List Char)
    (hmem : ∀ a : Char, a ∈ l → a.isDigit = true ∨ a = '.')
    (a : Char) (ha1 : a.isDigit = false) (ha2 : ¬ (a = '.')) : a ∉ l := by
  intro hm
  rcases hmem a hm with h | h
  · rw [ha1] at h; exact absurd h (by simp)
  · exact ha2 h

theorem evalSimple_plain (l : List Char)
    (hmem : ∀ a : Char, a ∈ l → a.isDigit = true ∨ a = '.') :
    evalSimple l = some (evalTokens (tokenize l)) := by
  have h1 : replaceChar '×' ['*'] l = l :=
    replaceChar_id _ _ _ (class_not_mem l hmem '×' (by decide) (by decide))
  have h2 : replaceChar '÷' ['/'] l = l :=
    replaceChar_id _ _ _ (class_not_mem l hmem '÷' (by decide) (by decide))
  have h3 : replaceChar 'π' piStr l = l :=
    replaceChar_id _ _ _ (class_not_mem l hmem 'π' (by decide) (by decide))
  have h4 : replaceChar '^' ['*', '*'] l = l :=
    replaceChar_id _ _ _ (class_not_mem l hmem '^' (by decide) (by decide))
  have h5 : sqrtTextSub l.length l = l :=
    sqrtTextSub_id _ _ (class_not_mem l hmem '√' (by decide) (by decide)) le_rfl
  have h6 : expLoop (l.length + 1) l = some l :=
    expLoop_noStar _ (hasStarStar_eq_false _
      (class_not_mem l hmem '*' (by decide) (by decide))) _
  simp only [evalSimple, h1, h2, h3, h4, h5, h6]

theorem evaluate_plainNum (l : List Char) (w : ℚ)
    (hmem : ∀ a : Char, a ∈ l → a.isDigit = true ∨ a = '.')
    (hlen : l.length ≤ 100)
    (hdot : l.count '.' ≤ 1)
    (htok : tokenize l = [Token.num w]) :
    evaluate (String.mk l) = some (String.mk (formatResult w)) := by
  have hbal : (String.mk l).data.count '(' = (String.mk l).data.count ')' := by
    show l.count '(' = l.count ')'
    rw [List.count_eq_zero.mpr (class_not_mem l hmem '(' (by decide) (by decide)),
      List.count_eq_zero.mpr (class_not_mem l hmem ')' (by decide) (by decide))]
  have hdd : hasDoubleDot (String.mk l).data = false := hasDoubleDot_count l hdot
  rw [evaluate_eq_of_valid (String.mk l) hlen hbal hdd]
  show (match evalCore l with
    | none => none
    | some (.error e) => some (errStr e)
    | some (.ok none) => some "Error"
    | some (.ok (some v)) => some (String.mk (formatResult v))) = _
  unfold evalCore
  simp only [rootLoop_noRoot l (class_not_mem l hmem '√' (by decide) (by decide)),
    parenLoop_noParen l (class_not_mem l hmem '(' (by decide) (by decide)),
    evalSimple_plain l hmem, htok]
  rfl

theorem rhe_intCast (z : ℤ) : rhe (z : ℚ) = z := by
  simp only [rhe, Int.floor_intCast, sub_self]
  norm_num

theorem rhe_ge_floor (x : ℚ) : ⌊x⌋ ≤ rhe x := by
  simp only [rhe]
  split
  · exact le_refl _
  · split
    · omega
    · split <;> omega

theorem isDigit_ne_dot (c : Char) (h : c.isDigit = true) : ¬ (c = '.') := by
  intro he
  subst he
  exact absurd h (by decide)

theorem count_dot_digits (l : List Char) (h : ∀ c ∈ l, c.isDigit = true) :
    l.count '.' = 0 :=
  List.count_eq_zero.mpr (fun hm => isDigit_ne_dot '.' (h '.' hm) rfl)

theorem numVal_nil (ds : List Char) : numVal ds [] = (natOfDigits ds : ℚ) := by
  unfold numVal
  norm_num [natOfDigits]

theorem formatResult_int (v : ℚ) (hden : v.den = 1) (h0 : 0 ≤ v)
    (h8 : v < 10 ^ 8) (hlow : v = 0 ∨ 1 / 10 ^ 4 ≤ v) :
    formatResult v = natStr v.num.natAbs := by
  have habs : |v| = v := abs_of_nonneg h0
  unfold formatResult
  rw [if_neg, if_pos hden]
  · unfold intStr
    rw [if_neg (by rw [Int.not_lt]; exact Rat.num_nonneg.mpr h0)]
  · rw [habs]
    rintro (hc | ⟨hc1, hc2, -⟩)
    · exact absurd h8 (not_lt.mpr hc)
    · rcases hlow with h | h
      · subst h; exact absurd hc1 (by norm_num)
      · exact absurd hc2 (not_lt.mpr h)

theorem formatResult_natCast (n : ℕ) (h : (n : ℚ) < 10 ^ 8) :
    formatResult (n : ℚ) = natStr n := by
  by_cases h0 : n = 0
  · subst h0
    show formatResult 0 = natStr 0
    rfl
  · rw [formatResult_int (n : ℚ) (Rat.den_natCast n) (by positivity) h
      (Or.inr ?_)]
    · rw [Rat.num_natCast]
      simp
    · calc (1 : ℚ) / 10 ^ 4 ≤ 1 := by norm_num
        _ ≤ (n : ℚ) := by
            have : 1 ≤ n := Nat.one_le_iff_ne_zero.mpr h0
            exact_mod_cast this

theorem roundtrip_int (n : ℕ) (h : n < 10 ^ 8) :
    evaluate (String.mk (natStr n)) = some (String.mk (natStr n)) := by
  have hcast : ((n : ℚ)) < 10 ^ 8 := by exact_mod_cast h
  have htok : tokenize (natStr n) = [Token.num (n : ℚ)] := by
    rw [tokenize_intStr (natStr n) (natStr_isDigit n) (natStr_ne_nil n),
      numVal_nil, natOfDigits_natStr]
  have := evaluate_plainNum (natStr n) (n : ℚ)
    (fun a ha => Or.inl (natStr_isDigit n a ha))
    (le_trans (natStr_len n 8 h (by norm_num)) (by norm_num))
    (by rw [count_dot_digits _ (natStr_isDigit n)]; norm_num)
    htok
  rw [this, formatResult_natCast n hcast]

theorem fixed8_of_nonneg (v : ℚ) (h0 : 0 ≤ v) :
    fixed8 v = natStr ((rhe (v * 10 ^ 8)).toNat / 10 ^ 8) ++ '.' ::
      (List.replicate (8 - (natStr ((rhe (v * 10 ^ 8)).toNat % 10 ^ 8)).length) '0' ++
        natStr ((rhe (v * 10 ^ 8)).toNat % 10 ^ 8)) := by
  simp only [fixed8, abs_of_nonneg h0, if_neg (not_lt.mpr h0), List.nil_append]

theorem formatResult_fixed (v : ℚ) (hden : v.den ≠ 1) (h0 : 0 ≤ v)
    (h8 : v < 10 ^ 8) (hlow : 1 / 10 ^ 4 ≤ v) :
    formatResult v =
      (if rstrip '.' (rstrip '0' (fixed8 v)) = [] then ['0']
       else rstrip '.' (rstrip '0' (fixed8 v))) := by
  unfold formatResult
  rw [if_neg, if_neg hden]
  · rw [abs_of_nonneg h0]
    rintro (hc | ⟨-, hc2, -⟩)
    · exact absurd h8 (not_lt.mpr hc)
    · exact absurd hc2 (not_lt.mpr hlow)

theorem pad_isDigit (fp k : ℕ) :
    ∀ c ∈ List.replicate k '0' ++ natStr fp, c.isDigit = true := by
  intro c hc
  rcases List.mem_append.mp hc with h | h
  · rw [List.eq_of_mem_replicate h]; decide
  · exact natStr_isDigit fp c h

theorem natOfDigits_pad (fp k : ℕ) :
    natOfDigits (List.replicate k '0' ++ natStr fp) = fp := by
  rw [natOfDigits_append, natOfDigits_replicate_zero, natOfDigits_natStr]
  ring

theorem len_pad (fp : ℕ) (h : fp < 10 ^ 8) :
    (List.replicate (8 - (natStr fp).length) '0' ++ natStr fp).length = 8 := by
  rw [List.length_append, List.length_replicate]
  have := natStr_len fp 8 h (by norm_num)
  omega

theorem strip_fixed_zero (ip : ℕ) :
    rstrip '.' (rstrip '0' (natStr ip ++ '.' ::
      (List.replicate (8 - (natStr 0).length) '0' ++ natStr 0))) = natStr ip := by
  have hP : List.replicate (8 - (natStr 0).length) '0' ++ natStr 0 =
      List.replicate 8 '0' := by
    show List.replicate (8 - 1) '0' ++ ['0'] = List.replicate 8 '0'
    rw [← List.replicate_succ']
  rw [hP, show natStr ip ++ '.' :: List.replicate 8 '0' =
      (natStr ip ++ ['.']) ++ List.replicate 8 '0' by simp]
  rw [rstrip_append '0' _ _, if_pos (rstrip_replicate '0' 8)]
  rw [rstrip_append '0' (natStr ip) ['.'],
    if_neg (by intro h; exact absurd h (by decide)),
    show rstrip '0' ['.'] = ['.'] from by decide]
  rw [rstrip_append '.' (natStr ip) ['.'], if_pos (by decide)]
  exact rstrip_id_of_all_ne '.' _
    (fun x hx => isDigit_ne_dot x (natStr_isDigit ip x hx))

theorem strip_fixed_pos (ip fp : ℕ) (hfp : fp ≠ 0) :
    rstrip '.' (rstrip '0' (natStr ip ++ '.' ::
        (List.replicate (8 - (natStr fp).length) '0' ++ natStr fp))) =
      natStr ip ++ '.' :: rstrip '0'
        (List.replicate (8 - (natStr fp).length) '0' ++ natStr fp) ∧
    rstrip '0' (List.replicate (8 - (natStr fp).length) '0' ++ natStr fp) ≠ [] := by
  have hne : rstrip '0'
      (List.replicate (8 - (natStr fp).length) '0' ++ natStr fp) ≠ [] := by
    intro hcon
    obtain ⟨t, hdecomp⟩ := rstrip_decomp '0'
      (List.replicate (8 - (natStr fp).length) '0' ++ natStr fp)
    rw [hcon, List.nil_append] at hdecomp
    have := natOfDigits_pad fp (8 - (natStr fp).length)
    rw [hdecomp, natOfDigits_replicate_zero] at this
    exact hfp this.symm
  refine ⟨?_, hne⟩
  have hdig : ∀ x ∈ rstrip '0'
      (List.replicate (8 - (natStr fp).length) '0' ++ natStr fp), x.isDigit = true :=
    fun x hx => pad_isDigit fp _ x (rstrip_subset '0' _ x hx)
  rw [show natStr ip ++ '.' ::
      (List.replicate (8 - (natStr fp).length) '0' ++ natStr fp) =
      (natStr ip ++ ['.']) ++
        (List.replicate (8 - (natStr fp).length) '0' ++ natStr fp) by simp]
  rw [rstrip_append '0' _ _, if_neg hne]
  have hid : rstrip '.' (rstrip '0'
      (List.replicate (8 - (natStr fp).length) '0' ++ natStr fp)) =
      rstrip '0' (List.replicate (8 - (natStr fp).length) '0' ++ natStr fp) :=
    rstrip_id_of_all_ne '.' _ (fun x hx => isDigit_ne_dot x (hdig x hx))
  rw [rstrip_append '.' _ _, if_neg (by rw [hid]; exact hne), hid]
  simp

theorem roundtrip_fixed_core (m : ℕ) (hm4 : 10 ^ 4 ≤ m) (hm16 : m < 10 ^ 16) :
    evaluate (String.mk (rstrip '.' (rstrip '0' (fixed8 ((m : ℚ) / 10 ^ 8))))) =
      some (String.mk (rstrip '.' (rstrip '0' (fixed8 ((m : ℚ) / 10 ^ 8))))) := by
  have h10 : ((10 : ℚ) ^ 8) ≠ 0 := by norm_num
  have hval : ((m : ℚ) / 10 ^ 8) * 10 ^ 8 = ((m : ℤ) : ℚ) := by
    push_cast
    field_simp
  have hrhe : (rhe (((m : ℚ) / 10 ^ 8) * 10 ^ 8)).toNat = m := by
    rw [hval, rhe_intCast]
    simp
  have h0 : (0 : ℚ) ≤ (m : ℚ) / 10 ^ 8 := by positivity
  have hfx : fixed8 ((m : ℚ) / 10 ^ 8) = natStr (m / 10 ^ 8) ++ '.' ::
      (List.replicate (8 - (natStr (m % 10 ^ 8)).length) '0' ++
        natStr (m % 10 ^ 8)) := by
    rw [fixed8_of_nonneg _ h0, hrhe]
  have hip8 : m / 10 ^ 8 < 10 ^ 8 := by
    rw [Nat.div_lt_iff_lt_mul (by norm_num)]
    calc m < 10 ^ 16 := hm16
      _ = 10 ^ 8 * 10 ^ 8 := by norm_num
  by_cases hfp : m % 10 ^ 8 = 0
  · rw [hfx, hfp, strip_fixed_zero]
    exact roundtrip_int _ hip8
  · obtain ⟨hstrip, hne⟩ := strip_fixed_pos (m / 10 ^ 8) (m % 10 ^ 8) hfp
    rw [hfx, hstrip]
    have hfp8 : m % 10 ^ 8 < 10 ^ 8 := Nat.mod_lt _ (by norm_num)
    have hP'dig : ∀ c ∈ rstrip '0'
        (List.replicate (8 - (natStr (m % 10 ^ 8)).length) '0' ++
          natStr (m % 10 ^ 8)), c.isDigit = true :=
      fun c hc => pad_isDigit _ _ c (rstrip_subset _ _ c hc)
    obtain ⟨t, hdecomp⟩ := rstrip_decomp '0'
      (List.replicate (8 - (natStr (m % 10 ^ 8)).length) '0' ++
        natStr (m % 10 ^ 8))
    have hlenP := len_pad (m % 10 ^ 8) hfp8
    have hlen' : (rstrip '0'
        (List.replicate (8 - (natStr (m % 10 ^ 8)).length) '0' ++
          natStr (m % 10 ^ 8))).length + t = 8 := by
      have hc := congrArg List.length hdecomp
      simp only [List.length_append, List.length_replicate] at hc
      have hL := natStr_len (m % 10 ^ 8) 8 hfp8 (by norm_num)
      omega
    have hfpval : natOfDigits (rstrip '0'
        (List.replicate (8 - (natStr (m % 10 ^ 8)).length) '0' ++
          natStr (m % 10 ^ 8))) * 10 ^ t = m % 10 ^ 8 := by
      have h1 := natOfDigits_pad (m % 10 ^ 8) (8 - (natStr (m % 10 ^ 8)).length)
      rw [hdecomp, natOfDigits_append] at h1
      rw [natOfDigits_replicate_zero, List.length_replicate] at h1
      omega
    have hw : numVal (natStr (m / 10 ^ 8)) (rstrip '0'
        (List.replicate (8 - (natStr (m % 10 ^ 8)).length) '0' ++
          natStr (m % 10 ^ 8))) = (m : ℚ) / 10 ^ 8 := by
      unfold numVal
      rw [natOfDigits_natStr, eq_div_iff h10]
      have hpow : (10 : ℚ) ^ 8 = 10 ^ (rstrip '0'
          (List.replicate (8 - (natStr (m % 10 ^ 8)).length) '0' ++
            natStr (m % 10 ^ 8))).length * 10 ^ t := by
        rw [← pow_add, hlen']
      have hfpcast : (natOfDigits (rstrip '0'
          (List.replicate (8 - (natStr (m % 10 ^ 8)).length) '0' ++
            natStr (m % 10 ^ 8))) : ℚ) * 10 ^ t = ((m % 10 ^ 8 : ℕ) : ℚ) := by
        exact_mod_cast congrArg (fun k : ℕ => (k : ℚ)) hfpval
      have hmq : (m : ℚ) = ((m / 10 ^ 8 : ℕ) : ℚ) * 10 ^ 8 + ((m % 10 ^ 8 : ℕ) : ℚ) := by
        exact_mod_cast (by omega : m = m / 10 ^ 8 * 10 ^ 8 + m % 10 ^ 8)
      rw [hmq, add_mul]
      congr 1
      rw [hpow, ← mul_assoc, div_mul_cancel₀ _ (by positivity), hfpcast]
    have hmem : ∀ a : Char, a ∈ natStr (m / 10 ^ 8) ++ '.' :: rstrip '0'
        (List.replicate (8 - (natStr (m % 10 ^ 8)).length) '0' ++
          natStr (m % 10 ^ 8)) → a.isDigit = true ∨ a = '.' := by
      intro a ha
      rcases List.mem_append.mp ha with h | h
      · exact Or.inl (natStr_isDigit _ a h)
      · rcases List.mem_cons.mp h with h | h
        · exact Or.inr h
        · exact Or.inl (hP'dig a h)
    have hlenF : (natStr (m / 10 ^ 8) ++ '.' :: rstrip '0'
        (List.replicate (8 - (natStr (m % 10 ^ 8)).length) '0' ++
          natStr (m % 10 ^ 8))).length ≤ 100 := by
      rw [List.length_append, List.length_cons]
      have h1 := natStr_len (m / 10 ^ 8) 8 hip8 (by norm_num)
      omega
    have hdot : (natStr (m / 10 ^ 8) ++ '.' :: rstrip '0'
        (List.replicate (8 - (natStr (m % 10 ^ 8)).length) '0' ++
          natStr (m % 10 ^ 8))).count '.' ≤ 1 := by
      rw [List.count_append, count_dot_digits _ (natStr_isDigit _)]
      rw [List.count_cons, count_dot_digits _ hP'dig]
      simp
    have htok := tokenize_decStr (natStr (m / 10 ^ 8)) (rstrip '0'
        (List.replicate (8 - (natStr (m % 10 ^ 8)).length) '0' ++
          natStr (m % 10 ^ 8))) (natStr_isDigit _) hP'dig (natStr_ne_nil _)
    rw [evaluate_plainNum _ _ hmem hlenF hdot htok, hw]
    have hw8 : (m : ℚ) / 10 ^ 8 < 10 ^ 8 := by
      rw [div_lt_iff₀ (by positivity)]
      calc (m : ℚ) < 10 ^ 16 := by exact_mod_cast hm16
        _ = 10 ^ 8 * 10 ^ 8 := by norm_num
    have hwlow : 1 / 10 ^ 4 ≤ (m : ℚ) / 10 ^ 8 := by
      rw [div_le_div_iff₀ (by norm_num) (by positivity)]
      calc (1 : ℚ) * 10 ^ 8 = 10 ^ 8 := by ring
        _ = (10 ^ 4 : ℚ) * 10 ^ 4 := by norm_num
        _ ≤ (m : ℚ) * 10 ^ 4 := by
            have : (10 ^ 4 : ℚ) ≤ (m : ℚ) := by exact_mod_cast hm4
            exact mul_le_mul_of_nonneg_right this (by positivity)
    have hwden : ((m : ℚ) / 10 ^ 8).den ≠ 1 := by
      intro hden
      have hnum := (Rat.den_eq_one_iff _).mp hden
      have h1 : (((m : ℚ) / 10 ^ 8).num : ℚ) * 10 ^ 8 = ((m : ℤ) : ℚ) := by
        rw [hnum, hval]
      have hint : ((m : ℚ) / 10 ^ 8).num * 10 ^ 8 = (m : ℤ) := by
        exact_mod_cast h1
      have hdvd : (10 ^ 8 : ℤ) ∣ (m : ℤ) :=
        ⟨((m : ℚ) / 10 ^ 8).num, by rw [← hint]; ring⟩
      have hdvdn : (10 ^ 8 : ℕ) ∣ m := by exact_mod_cast hdvd
      exact hfp (Nat.eq_zero_of_dvd_of_lt ((Nat.dvd_mod_iff dvd_rfl).mpr hdvdn)
        (Nat.mod_lt _ (by norm_num)))
    rw [formatResult_fixed _ hwden h0 hw8 hwlow, hfx, hstrip]
    rw [if_neg (by simp)]

theorem fixed8_div_pow (m : ℕ) :
    fixed8 ((m : ℚ) / 10 ^ 8) = natStr (m / 10 ^ 8) ++ '.' ::
      (List.replicate (8 - (natStr (m % 10 ^ 8)).length) '0' ++
        natStr (m % 10 ^ 8)) := by
  have hval : ((m : ℚ) / 10 ^ 8) * 10 ^ 8 = ((m : ℤ) : ℚ) := by
    push_cast
    field_simp
  have hrhe : (rhe (((m : ℚ) / 10 ^ 8) * 10 ^ 8)).toNat = m := by
    rw [hval, rhe_intCast]
    simp
  rw [fixed8_of_nonneg _ (by positivity), hrhe]

theorem strip_fixed_ne_nil (m : ℕ) :
    rstrip '.' (rstrip '0' (natStr (m / 10 ^ 8) ++ '.' ::
      (List.replicate (8 - (natStr (m % 10 ^ 8)).length) '0' ++
        natStr (m % 10 ^ 8)))) ≠ [] := by
  by_cases hfp : m % 10 ^ 8 = 0
  · rw [hfp, strip_fixed_zero]
    exact natStr_ne_nil _
  · rw [(strip_fixed_pos _ _ hfp).1]
    simp

/-- C1 counterexample: `evaluate "√(-4)"` does not return the
InvalidSqrtInput outcome string — the linear evaluation of the captured
argument `-4` discards the leading minus, so the root argument evaluates
to `4`, whose root `2` becomes the result. -/
theorem c1_sqrt_negative_cex :
    evaluate "√(-4)" = some "2" ∧
      ¬ (evaluate "√(-4)" = some "Invalid sqrt input") := by
  constructor <;> decide

/-- C1 (amended): for every parenthesized root `√(<arg>)` whose argument
(free of parentheses, at most 97 characters, nonempty, passing the
malformed-number check) *linearly evaluates* to a negative value,
`evaluate` returns the distinct `"Invalid sqrt input"` outcome string.
An argument with a leading minus does not qualify: its linear evaluation
is nonnegative because the leading operator is discarded, which is why
`"√(-4)"` yields `"2"` instead. -/
theorem c1_sqrt_negative (s : List Char) (v : ℚ)
    (hlen : s.length ≤ 97) (hrp : ')' ∉ s) (hlp : '(' ∉ s) (hne : s ≠ [])
    (hdd : hasDoubleDot ('√' :: '(' :: (s ++ [')'])) = false)
    (hv : evalSimple s = some (.ok (some v))) (hneg : v < 0) :
    evaluate (String.mk ('√' :: '(' :: (s ++ [')']))) = some "Invalid sqrt input" := by
  obtain ⟨c0, cap, rfl⟩ : ∃ c0 cap, s = c0 :: cap := by
    cases s with
    | nil => exact absurd rfl hne
    | cons a l => exact ⟨a, l, rfl⟩
  have hp : ∀ x ∈ c0 :: cap, (fun x => decide (x ≠ ')')) x = true := by
    intro x hx
    simp only [decide_eq_true_eq]
    intro hxe
    exact hrp (hxe ▸ hx)
  have htake : List.takeWhile (fun x => x ≠ ')') ((c0 :: cap) ++ [')']) =
      c0 :: cap := by
    rw [takeWhile_append_all _ _ hp]
    simp
  have hdrop : List.dropWhile (fun x => x ≠ ')') ((c0 :: cap) ++ [')']) =
      [')'] := by
    rw [dropWhile_append_all _ _ hp]
    rfl
  have hsub : ∀ fuel : ℕ,
      subRootParen (fuel + 1) ('√' :: '(' :: ((c0 :: cap) ++ [')'])) =
        some (.error .invalidSqrt) := by
    intro fuel
    simp only [subRootParen, ite_true]
    rw [hdrop, htake]
    simp only [hv]
    rw [if_pos hneg]
  have hroot : ∀ fuel : ℕ,
      rootLoop (fuel + 1) ('√' :: '(' :: ((c0 :: cap) ++ [')'])) =
        some (.error .invalidSqrt) := by
    intro fuel
    simp only [rootLoop]
    rw [if_pos (List.mem_cons_self _ _), List.length_cons,
      hsub (('(' :: ((c0 :: cap) ++ [')'])).length)]
  have h1 : '(' ∉ cap := fun h => hlp (List.mem_cons_of_mem _ h)
  have h2 : ')' ∉ cap := fun h => hrp (List.mem_cons_of_mem _ h)
  have h3 : ¬ (c0 = '(') := by
    intro h
    exact hlp (by rw [h]; exact List.mem_cons_self _ _)
  have h4 : ¬ (c0 = ')') := by
    intro h
    exact hrp (by rw [h]; exact List.mem_cons_self _ _)
  have hbal : ('√' :: '(' :: ((c0 :: cap) ++ [')'])).count '(' =
      ('√' :: '(' :: ((c0 :: cap) ++ [')'])).count ')' := by
    simp [List.count_cons, List.count_append, List.count_eq_zero.mpr h1,
      List.count_eq_zero.mpr h2, h3, h4]
  have hlen' : ('√' :: '(' :: ((c0 :: cap) ++ [')'])).length ≤ 100 := by
    simp only [List.length_cons] at hlen
    simp only [List.length_cons, List.length_append, List.length_singleton,
      List.length_nil]
    omega
  rw [evaluate_eq_of_valid _ hlen' hbal hdd]
  unfold evalCore
  rw [show (String.mk ('√' :: '(' :: ((c0 :: cap) ++ [')']))).data =
      '√' :: '(' :: ((c0 :: cap) ++ [')']) from rfl]
  rw [hroot (('√' :: '(' :: ((c0 :: cap) ++ [')'])).length)]
  rfl

/-- C1 witness: the amended theorem at the concrete argument `1-5`, whose
linear evaluation is `-4 < 0`. -/
theorem c1_sqrt_negative_witness :
    evaluate (String.mk ('√' :: '(' :: ("1-5".data ++ [')']))) =
      some "Invalid sqrt input" :=
  c1_sqrt_negative "1-5".data (-4) (by decide) (by decide) (by decide)
    (by decide) (by decide) (by rfl) (by decide)

/-- C2 counterexample: `evaluate "√(√(16))"` is not the string `"2"` the
claim requires (the root regex `√\(([^)]+)\)` captures from the leftmost
`√(` to the first `)`, not an innermost non-nested group). -/
theorem c2_nested_root_cex : ¬ (evaluate "√(√(16))" = some "2") := by decide

/-- C2 (amended): the parenthesized-root regex captures everything up to
the first `)` — including a nested `√(` — and the captured text's inner
root marker is then dropped by the linear tokenizer, so
`evaluate "√(√(16))"` returns `"4"` (and `"√(√(4))"` returns `"2"` only
because dropping the inner root happens not to change that result). -/
theorem c2_nested_root :
    evaluate "√(√(16))" = some "4" ∧ evaluate "√(√(4))" = some "2" := by
  constructor <;> decide

/-- C3 (code bug): the rewrite loops are not bounded by a strict decrease
of the targeted marker.  On the one-character balanced input `"√"` neither
root regex matches, the buffer never changes, and the `while '√' in expr`
loop of the source runs forever — for every fuel the loop model reports
divergence, and `evaluate "√"` never produces an outcome. -/
theorem c3_termination_bug :
    evaluate "√" = none ∧ ∀ fuel : ℕ, rootLoop fuel ['√'] = none := by
  refine ⟨by decide, fun fuel => ?_⟩
  cases fuel <;> rfl

/-- C4 (code bug): the exponent pattern
`(\d+\.?\d*)\s*\*\*\s*(\d+\.?\d*)` cannot match a negative exponent, so on
`"0^-1"` the `while '**' in expr` loop of the source never changes the
buffer and runs forever instead of surfacing an evaluation failure — for
every fuel the loop model reports divergence.  Fractional exponents do
match and are resolved with floating-point power: `evaluate "4^0.5"`
returns `"2"`. -/
theorem c4_exponent_bug :
    evaluate "0^-1" = none ∧
      (∀ fuel : ℕ, expLoop fuel ['0', '*', '*', '-', '1'] = none) ∧
      evaluate "4^0.5" = some "2" := by
  refine ⟨by decide, fun fuel => ?_, by decide⟩
  cases fuel <;> rfl

/-- C5: the Linear Evaluator reduces strictly left to right with no
operator precedence — a number followed by alternating operator/number
tokens folds through `applyOp` in token order — and consequently
`evaluate "2+3×4"` returns `"20"` (not `"14"`) and `evaluate "10÷2×5"`
returns `"25"`. -/
theorem c5_no_precedence :
    (∀ (a : ℚ) (ps : List (Char × ℚ)),
        evalTokens (Token.num a :: opNumList ps) = (leftReduce a ps).map some) ∧
      evaluate "2+3×4" = some "20" ∧ evaluate "10÷2×5" = some "25" := by
  refine ⟨fun a ps => ?_, by decide, by decide⟩
  show evalFrom (none, none) (Token.num a :: opNumList ps) = _
  have h1 : evalFrom (none, none) (Token.num a :: opNumList ps) =
      evalFrom (some a, none) (opNumList ps) := rfl
  rw [h1, evalFrom_opNumList]

/-- C5 witness: the general no-precedence fold at the concrete token list
of `2+3×4`. -/
theorem c5_no_precedence_witness :
    evalTokens (Token.num 2 :: opNumList [('+', 3), ('×', 4)]) =
        (leftReduce 2 [('+', 3), ('×', 4)]).map some ∧
      evaluate "2+3×4" = some "20" :=
  ⟨c5_no_precedence.1 2 [('+', 3), ('×', 4)], c5_no_precedence.2.1⟩

/-- C6: a percentage token is contextual on the remembered operator —
after `+` the accumulator gains `accumulator * fraction`, after `-` it
loses it, and after `×`/`÷` it is multiplied/divided by the raw fraction
`value / 100` — so `evaluate "200+10%"` returns `"220"` and
`evaluate "200×10%"` returns `"20"`. -/
theorem c6_percentage :
    (∀ a p : ℚ,
        applyTok (some a, some '+') (Token.pct p) =
          .ok (some (a + a * (p / 100)), some '+')) ∧
      (∀ a p : ℚ,
        applyTok (some a, some '-') (Token.pct p) =
          .ok (some (a - a * (p / 100)), some '-')) ∧
      (∀ a p : ℚ,
        applyTok (some a, some '×') (Token.pct p) =
          .ok (some (a * (p / 100)), some '×')) ∧
      (∀ a p : ℚ, p / 100 ≠ 0 →
        applyTok (some a, some '÷') (Token.pct p) =
          .ok (some (a / (p / 100)), some '÷')) ∧
      evaluate "200+10%" = some "220" ∧ evaluate "200×10%" = some "20" := by
  refine ⟨fun a p => rfl, fun a p => rfl, fun a p => rfl, fun a p hp => ?_,
    by decide, by decide⟩
  simp [applyTok, pctOp, hp]

/-- C6 witness: the contextual percentage rules at `a = 200`, `p = 10`,
and the two concrete evaluations. -/
theorem c6_percentage_witness :
    applyTok (some 200, some '+') (Token.pct 10) =
        .ok (some (200 + 200 * (10 / 100)), some '+') ∧
      applyTok (some 200, some '÷') (Token.pct 10) =
        .ok (some (200 / (10 / 100)), some '÷') ∧
      evaluate "200+10%" = some "220" :=
  ⟨c6_percentage.1 200 10, c6_percentage.2.2.2.1 200 10 (by norm_num),
    c6_percentage.2.2.2.2.1⟩

/-- C7 counterexample: the final value `100000000` is not formatted as the
plain string `"100000000"` — the scientific-notation branch of the source
uses `abs(result) >= 1e8`, which the value `1e8` satisfies. -/
theorem c7_format_boundary_cex : ¬ (evaluate "100000000" = some "100000000") := by
  decide

/-- C7 (amended): the `1e8` threshold is inclusive, so
`evaluate "100000000"` returns the scientific string `"1.00000000e+08"`;
every value with `0 < |v| < 1e-4` is formatted by the 8-digit scientific
formatter (e.g. `evaluate "0.00001"` returns `"1.00000000e-05"`); and
`2.5` is formatted `"2.5"` with the trailing zeros and point stripped. -/
theorem c7_format_boundary :
    evaluate "100000000" = some "1.00000000e+08" ∧
      (∀ v : ℚ, 0 < |v| → |v| < 1 / 10 ^ 4 → formatResult v = sciFormat v) ∧
      evaluate "0.00001" = some "1.00000000e-05" ∧
      evaluate "2.5" = some "2.5" := by
  refine ⟨by decide, fun v h1 h2 => ?_, by decide, by decide⟩
  unfold formatResult
  rw [if_pos (Or.inr ⟨h1, h2, abs_pos.mp h1⟩)]

/-- C7 witness: the scientific branch at the concrete value `1/100000`. -/
theorem c7_format_boundary_witness :
    formatResult (1 / 100000) = sciFormat (1 / 100000) ∧
      evaluate "100000000" = some "1.00000000e+08" :=
  ⟨c7_format_boundary.2.1 (1 / 100000) (by decide) (by decide),
    c7_format_boundary.1⟩

/-- C9: a division step whose divisor is zero — a regular zero number
token after `÷` or `/`, and also the `÷`-percentage combination with a
zero fraction — raises the distinct divide-by-zero error, which the
exception handler of `evaluate_expression` turns into the dedicated
outcome string: any validated input whose pipeline raises it returns
`"Cannot divide by 0"`, in particular `evaluate "5÷0"`. -/
theorem c9_divide_by_zero :
    (∀ a : ℚ, applyTok (some a, some '÷') (Token.num 0) = .error .divideByZero) ∧
      (∀ a : ℚ, applyTok (some a, some '/') (Token.num 0) = .error .divideByZero) ∧
      (∀ a : ℚ, applyTok (some a, some '÷') (Token.pct 0) = .error .divideByZero) ∧
      (∀ s : String,
        s.data.length ≤ 100 →
        s.data.count '(' = s.data.count ')' →
        hasDoubleDot s.data = false →
        evalCore s.data = some (.error .divideByZero) →
        evaluate s = some "Cannot divide by 0") ∧
      evaluate "5÷0" = some "Cannot divide by 0" := by
  refine ⟨fun a => rfl, fun a => rfl, fun a => by simp [applyTok, pctOp],
    fun s h1 h2 h3 h4 => ?_, by decide⟩
  unfold evaluate
  rw [if_neg (by omega), if_neg (by simp [h2]), if_neg (by simp [h3]), h4]
  rfl

/-- C9 witness: the zero-divisor steps at `a = 5` and the propagation at
the concrete input `"5÷0"`. -/
theorem c9_divide_by_zero_witness :
    applyTok (some 5, some '÷') (Token.num 0) = .error .divideByZero ∧
      applyTok (some 5, some '÷') (Token.pct 0) = .error .divideByZero ∧
      evaluate "5÷0" = some "Cannot divide by 0" :=
  ⟨c9_divide_by_zero.1 5, c9_divide_by_zero.2.2.1 5,
    c9_divide_by_zero.2.2.2.1 "5÷0" (by decide) (by decide) (by decide) (by rfl)⟩

/-- C8 counterexample: a successful evaluation whose formatted result does
not re-evaluate to itself — `evaluate "1-5"` succeeds with `"-4"`, but
re-evaluating `"-4"` yields `"4"` because the linear evaluator discards an
operator that precedes the first number. -/
theorem c8_roundtrip_cex :
    evaluate "1-5" = some "-4" ∧ evaluate "-4" ≠ some "-4" := by
  constructor <;> decide

/-- C8 (amended): the re-evaluation round-trip holds for plain-notation
nonnegative results: for every final value in the plain-format range
(`0 ≤ v < 1e8`, and `v = 0` or `v ≥ 1e-4`, with its 8-decimal rounding
still below `1e8`), evaluating the formatted string returns that same
string.  It fails for negative results (the leading minus is discarded on
re-evaluation) and for scientific-notation results (the `e+`/`e-` text is
re-tokenized as arithmetic). -/
theorem c8_roundtrip (v : ℚ) (h0 : 0 ≤ v) (h8 : v < 10 ^ 8)
    (hlow : v = 0 ∨ 1 / 10 ^ 4 ≤ v) (hedge : rhe (v * 10 ^ 8) < 10 ^ 16) :
    evaluate (String.mk (formatResult v)) = some (String.mk (formatResult v)) := by
  by_cases hden : v.den = 1
  · have hnum : (v.num : ℚ) = v := (Rat.den_eq_one_iff v).mp hden
    have hnn : 0 ≤ v.num := Rat.num_nonneg.mpr h0
    have hnat : ((v.num.natAbs : ℕ) : ℚ) = v := by
      rw [Int.cast_natAbs, abs_of_nonneg (by exact_mod_cast hnn), hnum]
    have hlt : v.num.natAbs < 10 ^ 8 := by
      have h1 : ((v.num.natAbs : ℕ) : ℚ) < 10 ^ 8 := by rw [hnat]; exact h8
      exact_mod_cast h1
    rw [formatResult_int v hden h0 h8 hlow]
    exact roundtrip_int _ hlt
  · have hv0 : v ≠ 0 := fun h => hden (h ▸ rfl)
    have hlow' : 1 / 10 ^ 4 ≤ v := hlow.resolve_left hv0
    have hm0 : 0 ≤ rhe (v * 10 ^ 8) :=
      le_trans (Int.floor_nonneg.mpr (by positivity)) (rhe_ge_floor _)
    have hm4 : 10 ^ 4 ≤ (rhe (v * 10 ^ 8)).toNat := by
      have hfl : (10 ^ 4 : ℤ) ≤ ⌊v * 10 ^ 8⌋ := by
        apply Int.le_floor.mpr
        push_cast
        calc ((10 : ℚ) ^ 4) = (1 / 10 ^ 4) * 10 ^ 8 := by norm_num
          _ ≤ v * 10 ^ 8 := mul_le_mul_of_nonneg_right hlow' (by positivity)
      have h2 := le_trans hfl (rhe_ge_floor _)
      omega
    have hm16 : (rhe (v * 10 ^ 8)).toNat < 10 ^ 16 := by omega
    have hvq : fixed8 v = fixed8 (((rhe (v * 10 ^ 8)).toNat : ℚ) / 10 ^ 8) := by
      rw [fixed8_of_nonneg v h0, fixed8_div_pow]
    have hne : rstrip '.' (rstrip '0' (fixed8 v)) ≠ [] := by
      rw [hvq, fixed8_div_pow]
      exact strip_fixed_ne_nil _
    rw [formatResult_fixed v hden h0 h8 hlow', if_neg hne, hvq]
    exact roundtrip_fixed_core _ hm4 hm16

/-- C8 witness: the amended round-trip at the concrete value `5/2`, whose
formatted string is `"2.5"`. -/
theorem c8_roundtrip_witness :
    evaluate (String.mk (formatResult (5 / 2))) =
      some (String.mk (formatResult (5 / 2))) :=
  c8_roundtrip (5 / 2) (by decide) (by decide) (Or.inr (by decide)) (by decide)

/-- C10 (implicit behaviour): while the accumulator is unset, a plain
number token initializes it without applying the remembered operator, so
an operator before the first number is discarded — `evaluate "-5"` returns
`"5"` and `evaluate "-5+3"` returns `"8"`. -/
theorem c10_leading_operator :
    (∀ (b : ℚ) (lop : Option Char),
        applyTok (none, lop) (Token.num b) = .ok (some b, lop)) ∧
      evaluate "-5" = some "5" ∧ evaluate "-5+3" = some "8" := by
  refine ⟨fun b lop => rfl, by decide, by decide⟩

/-- C10 witness: the initialization step with a pending `-` at `b = 5`. -/
theorem c10_leading_operator_witness :
    applyTok (none, some '-') (Token.num 5) = .ok (some 5, some '-') ∧
      evaluate "-5" = some "5" :=
  ⟨c10_leading_operator.1 5 (some '-'), c10_leading_operator.2.1⟩

end Calc
